import Mathlib

/-!
Verification of the schema-driven binary protocol codec in `src/protocol.rs`
(mcproto-rs). The macros in that file generate, per protocol table, the
packet-identifier struct, the discriminated packet union with its dispatch
decoder, the field-sequential body record codecs, the enumerated-value
codecs, the packed bit-flag records and the counted-sequence codec. Each
generator is embedded here as a Lean function over the data the macro
receives, and the properties of the spec are proved about these embeddings.

Bytes are modelled as `List Nat` with each entry a `u8` value. Fallible
decoding returns `Except`. Machine arithmetic that could overflow is made
explicit with `% 2 ^ w`.
-/

/-- A wire buffer: a sequence of byte values. -/
abbrev Bytes := List Nat

/-- Modelled from the spec: the crate-level `DeserializeErr` type is outside
`src/protocol.rs`; the spec (section 7) requires a distinguishable
insufficient-data condition (`Eof`) and a `CannotUnderstandValue`
carrying a diagnostic description. -/
inductive DeserializeErr where
  | Eof : DeserializeErr
  | CannotUnderstandValue : String → DeserializeErr
deriving DecidableEq, Repr

/-- `PacketErr` from `src/protocol.rs`: `UnknownId(i32)` and
`DeserializeFailed(DeserializeErr)`. -/
inductive PacketErr where
  | UnknownId : Int → PacketErr
  | DeserializeFailed : DeserializeErr → PacketErr
deriving DecidableEq, Repr

/-- Modelled from the spec: the crate-level `Deserialized { value, data }`
result of a successful decode is a value paired with the unconsumed
remainder. A full decode result is `Except DeserializeErr (α × Bytes)`. -/
abbrev DeserializeResult (α : Type) := Except DeserializeErr (α × Bytes)

/-- Modelled from the spec: the Wire Codec Contract (section 4.1). A wire
type has a serializer producing its wire bytes (a serializer sink appends,
so a value's contribution is a byte list) and a deserializer consuming a
prefix of the input and returning the value plus the remainder. -/
structure Codec (α : Type) where
  ser : α → Bytes
  deser : Bytes → DeserializeResult α

/-- The contract a well-behaved wire type satisfies (spec section 4.1):
decoding an encoding followed by anything returns the original value and
consumes exactly the encoded bytes. -/
def ExactCodec {α : Type} (c : Codec α) : Prop :=
  ∀ (v : α) (extra : Bytes), c.deser (c.ser v ++ extra) = .ok (v, extra)

/-- Modelled from the spec: the crate-level `u8` primitive codec. A byte
value is in `Fin 256`; encoding emits the one byte, decoding reads one byte
and fails with the insufficient-data condition on empty input. -/
def u8Codec : Codec (Fin 256) where
  ser b := [b.val]
  deser bytes :=
    match bytes with
    | [] => .error .Eof
    | x :: rest =>
        if h : x < 256 then .ok (⟨x, h⟩, rest) else .error .Eof

theorem u8Codec_exact : ExactCodec u8Codec := by
  intro v extra
  simp [u8Codec, v.isLt]

/-- Modelled from the spec: the variable-length-integer primitive is an
external collaborator; its encoding emits 7 bits per byte, low group first,
with the high bit marking continuation. -/
def varIntEncodeNat (v : Nat) : Bytes :=
  if _h : v < 128 then [v]
  else (v % 128 + 128) :: varIntEncodeNat (v / 128)
decreasing_by exact Nat.div_lt_self (by omega) (by omega)

/-- Modelled from the spec: a `VarInt` wraps an `i32`; its encoding is the
variable-length encoding of the id reinterpreted as an unsigned 32-bit
value. -/
def varIntEncode (i : Int) : Bytes :=
  varIntEncodeNat ((i % 2 ^ 32).toNat)

/-! ## Packed bit-flag records (`proto_byte_flag`)

A generated flag record wraps one `u8`; each declared flag owns a mask.
The generated accessors are embedded below, byte and mask as `Nat` values
(`|||` and `^^^` of values below 256 stay below 256, so no reduction is
needed). -/

/-- `is_<flag>` from `proto_byte_flag`: `self.0 & mask != 0`. -/
def isFlag (mask b : Nat) : Bool :=
  b &&& mask != 0

/-- `set_<flag>` from `proto_byte_flag`, as the new byte value: if `value`
then `self.0 |= mask` else `self.0 ^= mask`. -/
def setFlag (mask b : Nat) (value : Bool) : Nat :=
  if value then b ||| mask else b ^^^ mask

/-- `with_<flag>` from `proto_byte_flag`: same byte update as
`set_<flag>`, returning the new record. -/
def withFlag (mask b : Nat) (value : Bool) : Nat :=
  if value then b ||| mask else b ^^^ mask

/-- Serialize for a flag record: the single underlying byte. -/
def flagSerialize (b : Nat) : Bytes := [b % 256]

/-- C1: the claim fails on the code. `set_f(false)` / `with_f(false)` XOR
the mask instead of clearing the bit, so on a record whose bit is already
clear (byte `0x00`, mask `0x01`) they SET the bit: `is_f()` afterwards is
`true`, not the requested `false`. The spec (section 9) identifies the
toggle as a defect and mandates the clear semantics, so this is a code
bug, evaluated here at the failing input. -/
theorem flag_clear_toggles_bit :
    isFlag 1 (withFlag 1 0 false) = true ∧
    isFlag 1 (setFlag 1 0 false) = true ∧
    isFlag 1 0 = false := by
  decide

/-! ## Field-sequential body record codecs (`__protocol_body_def_helper`)

A generated body record with fields `f1 : T1, ..., fn : Tn` serializes by
concatenating the fields' encodings in declaration order and deserializes
each field from the remainder left by the previous one, failing at the
first field failure. Any such record is the nested-pair composition of a
two-field step, so the generator is embedded as the zero-field codec and
the binary composition step. -/

/-- The zero-field body of `__protocol_body_def_helper`: serialize writes
nothing, deserialize returns the default value and consumes nothing. -/
def unitBodyCodec : Codec Unit where
  ser _ := []
  deser bytes := .ok ((), bytes)

/-- One composition step of the field-sequential codec generated by
`__protocol_body_def_helper`: serialize the first field then the second;
deserialize the first from the input and the second from its remainder,
propagating the first failure. -/
def fieldStepCodec {α β : Type} (a : Codec α) (b : Codec β) : Codec (α × β) where
  ser v := a.ser v.1 ++ b.ser v.2
  deser bytes :=
    match a.deser bytes with
    | .error e => .error e
    | .ok (x, rest) =>
        match b.deser rest with
        | .error e => .error e
        | .ok (y, rest2) => .ok ((x, y), rest2)

theorem unitBodyCodec_exact : ExactCodec unitBodyCodec := by
  intro v extra
  simp [unitBodyCodec]

theorem fieldStepCodec_exact {α β : Type} (a : Codec α) (b : Codec β)
    (ha : ExactCodec a) (hb : ExactCodec b) :
    ExactCodec (fieldStepCodec a b) := by
  intro v extra
  have h1 := ha v.1 (b.ser v.2 ++ extra)
  have h2 := hb v.2 extra
  simp [fieldStepCodec, List.append_assoc, h1, h2]

/-- C3: for every generated body record (any nested composition of the
zero-field codec and the field step, over field codecs meeting the wire
contract), decoding the encoding of `v` returns exactly `v` with an empty
remainder, and the composed codec again meets the wire contract (consumes
exactly what it produced, even with trailing bytes), so the result extends
to records of any number of fields. -/
theorem body_record_roundtrip {α β : Type} (a : Codec α) (b : Codec β)
    (ha : ExactCodec a) (hb : ExactCodec b) :
    (∀ v : α × β, (fieldStepCodec a b).deser ((fieldStepCodec a b).ser v) = .ok (v, [])) ∧
    ExactCodec (fieldStepCodec a b) ∧
    (∀ u : Unit, unitBodyCodec.deser (unitBodyCodec.ser u) = .ok (u, [])) := by
  refine ⟨?_, fieldStepCodec_exact a b ha hb, ?_⟩
  · intro v
    have h := fieldStepCodec_exact a b ha hb v []
    simpa using h
  · intro u
    simpa using unitBodyCodec_exact u []

/-- Witness for C3: two byte fields, the record `(3, 7)` round-trips. -/
theorem body_record_roundtrip_witness :
    (fieldStepCodec u8Codec u8Codec).deser
      ((fieldStepCodec u8Codec u8Codec).ser ((3 : Fin 256), (7 : Fin 256))) =
      .ok (((3 : Fin 256), (7 : Fin 256)), []) :=
  (body_record_roundtrip u8Codec u8Codec u8Codec_exact u8Codec_exact).1
    ((3 : Fin 256), (7 : Fin 256))

/-! ## Enumerated wire value codecs (`proto_enum_with_type`)

A generated enum binds variant `i` (in declaration order) to literal
`ls.get i` of the underlying wire type. `from_<t>` matches the decoded
literal against the declared literals in order; `as_<t>` maps a variant to
its literal; decode reads one underlying value, looks it up and fails with
`CannotUnderstandValue (format "invalid {typname} {literal}")` when it is
not declared. A variant of the generated enum is an index `Fin ls.length`
into the declaration list. -/

/-- `from_<t>` from `proto_enum_with_type`: first declared literal matching
the decoded value, as the corresponding variant; `None` when no literal
matches. -/
def enumFromLit {γ : Type} [DecidableEq γ] : (ls : List γ) → γ → Option (Fin ls.length)
  | [], _ => none
  | l :: ls, b =>
      if b = l then some ⟨0, Nat.succ_pos ls.length⟩
      else (enumFromLit ls b).map Fin.succ

/-- `as_<t>` from `proto_enum_with_type`: the literal declared for a
variant. -/
def enumAsLit {γ : Type} (ls : List γ) (v : Fin ls.length) : γ :=
  ls.get v

/-- `mc_serialize` from `proto_enum_with_type`: serialize the literal bound
to the variant through the underlying wire type. -/
def enumSerialize {γ : Type} (u : Codec γ) (ls : List γ) (v : Fin ls.length) : Bytes :=
  u.ser (enumAsLit ls v)

/-- `mc_deserialize` from `proto_enum_with_type`: decode one underlying
value, look up its variant, and fail with `CannotUnderstandValue` carrying
`"invalid {typname} {literal}"` when the literal is undeclared. -/
def enumDeserialize {γ : Type} [DecidableEq γ] (u : Codec γ) (typname : String)
    (litStr : γ → String) (ls : List γ) (bytes : Bytes) :
    Except DeserializeErr (Fin ls.length × Bytes) :=
  match u.deser bytes with
  | .error e => .error e
  | .ok (lit, rest) =>
      match enumFromLit ls lit with
      | some v => .ok (v, rest)
      | none => .error (.CannotUnderstandValue ("invalid " ++ typname ++ " " ++ litStr lit))

theorem enumFromLit_get {γ : Type} [DecidableEq γ] :
    ∀ (ls : List γ), ls.Nodup → ∀ v : Fin ls.length, enumFromLit ls (ls.get v) = some v := by
  intro ls
  induction ls with
  | nil => intro _ v; exact absurd v.isLt (by simp)
  | cons l ls ih =>
      intro hnd v
      rw [List.nodup_cons] at hnd
      refine Fin.cases ?_ ?_ v
      · simp [enumFromLit]
      · intro j
        have hmem : ls.get j ∈ ls := List.get_mem ls j.1 j.isLt
        have hne : ls.get j ≠ l := fun h => hnd.1 (h ▸ hmem)
        have ih2 := ih hnd.2 j
        rw [List.get_eq_getElem] at ih2 hne
        simp [enumFromLit, hne, ih2]

theorem enumFromLit_eq_none {γ : Type} [DecidableEq γ] :
    ∀ (ls : List γ) (b : γ), enumFromLit ls b = none ↔ b ∉ ls := by
  intro ls
  induction ls with
  | nil => simp [enumFromLit]
  | cons l ls ih =>
      intro b
      by_cases hb : b = l
      · subst hb; simp [enumFromLit]
      · simp [enumFromLit, hb, ih b]

theorem enumFromLit_mem {γ : Type} [DecidableEq γ] :
    ∀ (ls : List γ) (b : γ), b ∈ ls →
      ∃ v : Fin ls.length, enumFromLit ls b = some v ∧ ls.get v = b := by
  intro ls
  induction ls with
  | nil => intro b hb; simp at hb
  | cons l ls ih =>
      intro b hb
      by_cases heq : b = l
      · subst heq
        exact ⟨⟨0, Nat.succ_pos ls.length⟩, by simp [enumFromLit], rfl⟩
      · have hmem : b ∈ ls := by
          rcases List.mem_cons.mp hb with h | h
          · exact absurd h heq
          · exact h
        obtain ⟨v, hv, hgv⟩ := ih b hmem
        exact ⟨Fin.succ v, by simp [enumFromLit, heq, hv], by simpa [List.get] using hgv⟩

theorem enumFromLit_some_get {γ : Type} [DecidableEq γ] :
    ∀ (ls : List γ) (b : γ) (v : Fin ls.length),
      enumFromLit ls b = some v → ls.get v = b := by
  intro ls
  induction ls with
  | nil => intro b v; exact absurd v.isLt (by simp)
  | cons l ls ih =>
      intro b v h
      by_cases heq : b = l
      · subst heq
        simp [enumFromLit] at h
        subst h
        rfl
      · simp [enumFromLit, heq] at h
        obtain ⟨j, hj, hjv⟩ := h
        subst hjv
        simpa [List.get] using ih b j hj

/-- C5: for a generated enumerated wire value type with pairwise-distinct
declared literals over an underlying wire type meeting the contract, the
literal-to-variant mapping is a bijection over the declared set:
decode(encode v) returns `v` with the remainder the underlying type leaves,
`from(as v) = some v`, and conversely any successful lookup returns a
variant whose literal is the looked-up value. -/
theorem enum_bijection_roundtrip {γ : Type} [DecidableEq γ] (u : Codec γ)
    (typname : String) (litStr : γ → String) (ls : List γ)
    (hnd : ls.Nodup) (hu : ExactCodec u) (v : Fin ls.length) (extra : Bytes) :
    enumDeserialize u typname litStr ls (enumSerialize u ls v ++ extra) = .ok (v, extra) ∧
    enumFromLit ls (enumAsLit ls v) = some v ∧
    (∀ (b : γ) (w : Fin ls.length), enumFromLit ls b = some w → enumAsLit ls w = b) := by
  have hget := enumFromLit_get ls hnd v
  refine ⟨?_, hget, fun b w h => enumFromLit_some_get ls b w h⟩
  have hdes := hu (ls.get v) extra
  rw [List.get_eq_getElem] at hdes hget
  simp [enumDeserialize, enumSerialize, enumAsLit, hdes, hget]

/-- Witness for C5: the byte-backed enum with literals `[1, 5]`; variant 1
(literal 5) round-trips with remainder `[9]`. -/
theorem enum_bijection_roundtrip_witness :
    enumDeserialize u8Codec "TestEnum" (fun b => toString b.val)
        [(1 : Fin 256), (5 : Fin 256)]
        (enumSerialize u8Codec [(1 : Fin 256), (5 : Fin 256)] ⟨1, by decide⟩ ++ [9]) =
      .ok (⟨1, by decide⟩, [9]) :=
  (enum_bijection_roundtrip u8Codec "TestEnum" (fun b => toString b.val)
    [(1 : Fin 256), (5 : Fin 256)] (by decide) u8Codec_exact ⟨1, by decide⟩ [9]).1

/-- C6: when the underlying wire type decodes to a literal outside the
declared set, the generated decoder fails with `CannotUnderstandValue`
whose description contains the type name followed by the offending literal
(it is a total function, so it cannot panic); when the literal is declared,
it succeeds with the bound variant and the remaining bytes. -/
theorem enum_decode_unknown_value {γ : Type} [DecidableEq γ] (u : Codec γ)
    (typname : String) (litStr : γ → String) (ls : List γ)
    (bytes : Bytes) (lit : γ) (rest : Bytes)
    (hdes : u.deser bytes = .ok (lit, rest)) :
    (lit ∉ ls →
      ∃ msg, enumDeserialize u typname litStr ls bytes = .error (.CannotUnderstandValue msg) ∧
        ∃ p q, msg = p ++ typname ++ q ++ litStr lit) ∧
    (lit ∈ ls →
      ∃ v, enumDeserialize u typname litStr ls bytes = .ok (v, rest) ∧ enumAsLit ls v = lit) := by
  constructor
  · intro hout
    have hnone : enumFromLit ls lit = none := (enumFromLit_eq_none ls lit).mpr hout
    refine ⟨"invalid " ++ typname ++ " " ++ litStr lit, ?_, "invalid ", " ", rfl⟩
    simp [enumDeserialize, hdes, hnone]
  · intro hin
    obtain ⟨v, hv, hgv⟩ := enumFromLit_mem ls lit hin
    refine ⟨v, ?_, hgv⟩
    simp [enumDeserialize, hdes, hv]

/-- Witness for C6: bytes `[7, 9]` decode to the undeclared literal 7 for
the enum with literals `[1, 5]`; the decoder reports
`CannotUnderstandValue "invalid TestEnum 7"`. -/
theorem enum_decode_unknown_value_witness :
    ∃ msg,
      enumDeserialize u8Codec "TestEnum" (fun b => toString b.val)
          [(1 : Fin 256), (5 : Fin 256)] [7, 9] =
        .error (.CannotUnderstandValue msg) ∧
      ∃ p q, msg = p ++ "TestEnum" ++ q ++ toString (7 : Nat) :=
  (enum_decode_unknown_value u8Codec "TestEnum" (fun b => toString b.val)
    [(1 : Fin 256), (5 : Fin 256)] [7, 9] (7 : Fin 256) [9] rfl).1 (by decide)

/-! ## Counted sequence codecs (`counted_array_type`)

A generated counted array serializes the counter for the element count
followed by each element in order, and deserializes the counter, converts
it to a count `n`, then runs the element decoder exactly `n` times,
threading the remainder and aborting on the first element failure. -/

/-- The element loop of `counted_array_type`'s `mc_deserialize`: decode the
next element from the remainder left by the previous one, `n` times,
propagating the first failure. -/
def countedElemsDeserialize {α : Type} (elem : Codec α) :
    Nat → Bytes → Except DeserializeErr (List α × Bytes)
  | 0, bytes => .ok ([], bytes)
  | n + 1, bytes =>
      match elem.deser bytes with
      | .error e => .error e
      | .ok (x, rest) =>
          match countedElemsDeserialize elem n rest with
          | .error e => .error e
          | .ok (xs, rest2) => .ok (x :: xs, rest2)

/-- `mc_serialize` from `counted_array_type`: the counter obtained from the
length, then each element in order. -/
def countedArraySerialize {α γ : Type} (counter : Codec γ) (fromCount : Nat → γ)
    (elem : Codec α) (xs : List α) : Bytes :=
  counter.ser (fromCount xs.length) ++ (xs.map elem.ser).flatten

/-- `mc_deserialize` from `counted_array_type`: decode the counter, convert
it to a count, then decode exactly that many elements. -/
def countedArrayDeserialize {α γ : Type} (counter : Codec γ) (toCount : γ → Nat)
    (elem : Codec α) (bytes : Bytes) : Except DeserializeErr (List α × Bytes) :=
  match counter.deser bytes with
  | .error e => .error e
  | .ok (raw, rest) => countedElemsDeserialize elem (toCount raw) rest

theorem countedElemsDeserialize_succ {α : Type} (elem : Codec α) (n : Nat) (bytes : Bytes) :
    countedElemsDeserialize elem (n + 1) bytes =
      match elem.deser bytes with
      | .error e => .error e
      | .ok (x, rest) =>
          match countedElemsDeserialize elem n rest with
          | .error e => .error e
          | .ok (xs, rest2) => .ok (x :: xs, rest2) := rfl

theorem countedElemsDeserialize_ok {α : Type} (elem : Codec α) (he : ExactCodec elem) :
    ∀ (xs : List α) (extra : Bytes),
      countedElemsDeserialize elem xs.length ((xs.map elem.ser).flatten ++ extra) =
        .ok (xs, extra) := by
  intro xs
  induction xs with
  | nil => intro extra; simp [countedElemsDeserialize]
  | cons x xs ih =>
      intro extra
      have hx := he x ((xs.map elem.ser).flatten ++ extra)
      rw [List.length_cons, countedElemsDeserialize_succ]
      simp only [List.map_cons, List.flatten_cons, List.append_assoc]
      simp [hx, ih extra]

theorem countedElemsDeserialize_err {α : Type} (elem : Codec α) (he : ExactCodec elem) :
    ∀ (xs : List α) (m : Nat) (e : DeserializeErr) (rest : Bytes),
      elem.deser rest = .error e →
      countedElemsDeserialize elem (xs.length + (m + 1)) ((xs.map elem.ser).flatten ++ rest) =
        .error e := by
  intro xs
  induction xs with
  | nil =>
      intro m e rest herr
      simp [countedElemsDeserialize, herr]
  | cons x xs ih =>
      intro m e rest herr
      have hx := he x ((xs.map elem.ser).flatten ++ rest)
      have hih := ih m e rest herr
      have hlen : (x :: xs).length + (m + 1) = (xs.length + (m + 1)) + 1 := by
        simp only [List.length_cons]; omega
      rw [hlen, countedElemsDeserialize_succ]
      simp only [List.map_cons, List.flatten_cons, List.append_assoc]
      simp [hx, hih]

/-- C4: for a generated counted sequence over a counter and an element
codec meeting the wire contract: decode is the counter decode followed by
exactly `toCount` sequential element decodes; when the length is within the
counter's representable range (`toCount (fromCount n) = n`), decoding the
encoding returns the whole sequence of the same length with empty
remainder; and when the data is truncated so that an element decode fails
after the encoded prefix, the whole decode fails with exactly the inner
element error and returns no partial sequence. -/
theorem counted_sequence_roundtrip {α γ : Type} (counter : Codec γ)
    (toCount : γ → Nat) (fromCount : Nat → γ) (elem : Codec α)
    (hc : ExactCodec counter) (he : ExactCodec elem)
    (xs : List α) (hlen : toCount (fromCount xs.length) = xs.length) :
    (∀ bytes, countedArrayDeserialize counter toCount elem bytes =
      match counter.deser bytes with
      | .error e => .error e
      | .ok (raw, rest) => countedElemsDeserialize elem (toCount raw) rest) ∧
    countedArrayDeserialize counter toCount elem
        (countedArraySerialize counter fromCount elem xs) = .ok (xs, []) ∧
    (∀ (ys : List α) (m : Nat) (e : DeserializeErr) (rest : Bytes),
      toCount (fromCount (ys.length + (m + 1))) = ys.length + (m + 1) →
      elem.deser rest = .error e →
      countedArrayDeserialize counter toCount elem
          (counter.ser (fromCount (ys.length + (m + 1))) ++
            ((ys.map elem.ser).flatten ++ rest)) =
        .error e) := by
  refine ⟨fun bytes => rfl, ?_, ?_⟩
  · have hcd := hc (fromCount xs.length) ((xs.map elem.ser).flatten)
    have hok := countedElemsDeserialize_ok elem he xs []
    rw [List.append_nil] at hok
    simp only [countedArrayDeserialize, countedArraySerialize, hcd, hlen, hok]
  · intro ys m e rest hys herr
    have hcd := hc (fromCount (ys.length + (m + 1))) ((ys.map elem.ser).flatten ++ rest)
    have herr2 := countedElemsDeserialize_err elem he ys m e rest herr
    simp only [countedArrayDeserialize, hcd, hys, herr2]

/-- The count conversion pair for a byte-counted array: `to_count` is the
byte value, `from_count` reduces the length into a byte. -/
def byteFromCount (n : Nat) : Fin 256 := ⟨n % 256, Nat.mod_lt n (by decide)⟩

/-- Witness for C4: the byte-counted byte array `[3, 5]` encodes to
`[2, 3, 5]` and decodes back to itself; truncating the same wire form
before its second element (`[2, 3]`) fails with the insufficient-data
error of the element decoder. -/
theorem counted_sequence_roundtrip_witness :
    countedArrayDeserialize u8Codec Fin.val u8Codec
        (countedArraySerialize u8Codec byteFromCount u8Codec
          [(3 : Fin 256), (5 : Fin 256)]) =
      .ok ([(3 : Fin 256), (5 : Fin 256)], []) ∧
    countedArrayDeserialize u8Codec Fin.val u8Codec
        (u8Codec.ser (byteFromCount 2) ++ (([(3 : Fin 256)].map u8Codec.ser).flatten ++ [])) =
      .error .Eof := by
  constructor
  · exact (counted_sequence_roundtrip u8Codec Fin.val byteFromCount u8Codec
      u8Codec_exact u8Codec_exact [(3 : Fin 256), (5 : Fin 256)] (by decide)).2.1
  · exact (counted_sequence_roundtrip u8Codec Fin.val byteFromCount u8Codec
      u8Codec_exact u8Codec_exact [] (by decide)).2.2 [(3 : Fin 256)] 0 .Eof [] (by decide) rfl

/-! ## Packet identifier, union and dispatch (`define_protocol`)

`define_protocol!` compiles a packet table into: the identifier struct
(numeric id, state, direction), the discriminated union with one variant
per definition, `id()` mapping each variant to its declared triple, the
dispatch decoder matching the raw packet's triple against the declared
triples in declaration order, and a serializer that delegates to the
wrapped body. The compiled table is embedded as a structure holding, for
each definition index, its triple and its body type with that body's
codec; a union value is the pair of a definition index and a body. -/

/-- A state enumeration for concrete witness protocols. -/
inductive TestState where
  | Handshaking : TestState
  | Play : TestState
deriving DecidableEq, Repr

/-- A direction enumeration for concrete witness protocols. -/
inductive TestDirection where
  | Serverbound : TestDirection
  | Clientbound : TestDirection
deriving DecidableEq, Repr

/-- The packet identifier struct generated by `define_protocol!`: numeric
id plus the dispatch-time state and direction context. -/
structure PacketId (St Dir : Type) where
  id : Int
  state : St
  direction : Dir
deriving DecidableEq, Repr

/-- `RawPacket` from `src/protocol.rs`: an identifier plus the borrowed
body bytes, before dispatch. -/
structure RawPacket (St Dir : Type) where
  id : PacketId St Dir
  data : Bytes
deriving DecidableEq, Repr

/-- The compiled packet table of one `define_protocol!` invocation:
definition `i` declares triple `triple i` and a body type with its
generated codec. -/
structure ProtoTable (St Dir : Type) where
  n : Nat
  triple : Fin n → Int × St × Dir
  Body : Fin n → Type
  bodySer : ∀ i, Body i → Bytes
  bodyDeser : ∀ i, Bytes → Except DeserializeErr (Body i × Bytes)

/-- The generated packet union: one variant (index) per definition,
wrapping that definition's body. -/
def PacketUnion {St Dir : Type} (t : ProtoTable St Dir) : Type :=
  Σ i : Fin t.n, t.Body i

/-- The identifier struct built from a dispatch-key triple (the generated
`From<(id, state, direction)>` impl). -/
def mkPacketId {St Dir : Type} (key : Int × St × Dir) : PacketId St Dir :=
  ⟨key.1, key.2.1, key.2.2⟩

/-- `id()` from `define_protocol!`: each variant maps to its declared
triple, converted into the identifier struct. -/
def packetIdOf {St Dir : Type} (t : ProtoTable St Dir) (p : PacketUnion t) :
    PacketId St Dir :=
  mkPacketId (t.triple p.1)

/-- `mc_serialize` for the generated union: delegate to the wrapped body's
serializer (`serialize_other(body)`); the discriminant itself writes
nothing. -/
def packetSerialize {St Dir : Type} (t : ProtoTable St Dir) (p : PacketUnion t) : Bytes :=
  t.bodySer p.1 p.2

/-- `mc_serialize` for the generated identifier struct: only
`VarInt(self.id)` is written; state and direction contribute nothing. -/
def idSerialize {St Dir : Type} (pid : PacketId St Dir) : Bytes :=
  varIntEncode pid.id

/-- The dispatch match of `Packet::mc_deserialize`: the declared triples
are tried in declaration order and the first exact match wins. -/
def findTriple {St Dir : Type} [DecidableEq St] [DecidableEq Dir]
    (t : ProtoTable St Dir) (key : Int × St × Dir) : Option (Fin t.n) :=
  (List.finRange t.n).find? (fun i => decide (t.triple i = key))

/-- `Packet::mc_deserialize` from `define_protocol!`: resolve the raw
packet's `(id, state, direction)` against the table; on a match run that
body's decoder on `data`, wrapping a failure in `DeserializeFailed` and a
success (its `.value`, dropping the leftover bytes) in the matched
variant; with no match fail with `UnknownId` of the numeric id. -/
def packetDeserialize {St Dir : Type} [DecidableEq St] [DecidableEq Dir]
    (t : ProtoTable St Dir) (raw : RawPacket St Dir) :
    Except PacketErr (PacketUnion t) :=
  match findTriple t (raw.id.id, raw.id.state, raw.id.direction) with
  | some i =>
      match t.bodyDeser i raw.data with
      | .ok d => .ok ⟨i, d.1⟩
      | .error e => .error (.DeserializeFailed e)
  | none => .error (.UnknownId raw.id.id)

theorem findTriple_self {St Dir : Type} [DecidableEq St] [DecidableEq Dir]
    (t : ProtoTable St Dir) (hinj : ∀ i j, t.triple i = t.triple j → i = j)
    (i : Fin t.n) : findTriple t (t.triple i) = some i := by
  cases h : findTriple t (t.triple i) with
  | none =>
      exfalso
      have hall := List.find?_eq_none.mp h i (List.mem_finRange i)
      simp at hall
  | some j =>
      have hj := List.find?_some h
      have : t.triple j = t.triple i := by simpa using hj
      rw [hinj j i this]

theorem findTriple_absent {St Dir : Type} [DecidableEq St] [DecidableEq Dir]
    (t : ProtoTable St Dir) (key : Int × St × Dir)
    (habs : ∀ i, t.triple i ≠ key) : findTriple t key = none := by
  apply List.find?_eq_none.mpr
  intro i _
  simp [habs i]

/-- C2: over a table with pairwise-distinct triples, dispatch of a raw
packet whose triple is declared at index `i` runs that body's decoder on
the data: a successful body decode yields the variant `i` wrapping the
decoded value; a failing body decode yields `DeserializeFailed` around the
unchanged inner error; and a triple declared nowhere yields `UnknownId`
carrying the numeric id. -/
theorem packet_dispatch_decode {St Dir : Type} [DecidableEq St] [DecidableEq Dir]
    (t : ProtoTable St Dir) (hinj : ∀ i j, t.triple i = t.triple j → i = j) :
    (∀ (i : Fin t.n) (data : Bytes) (v : t.Body i) (rest : Bytes),
      t.bodyDeser i data = .ok (v, rest) →
      packetDeserialize t ⟨mkPacketId (t.triple i), data⟩ = .ok ⟨i, v⟩) ∧
    (∀ (i : Fin t.n) (data : Bytes) (e : DeserializeErr),
      t.bodyDeser i data = .error e →
      packetDeserialize t ⟨mkPacketId (t.triple i), data⟩ =
        .error (.DeserializeFailed e)) ∧
    (∀ (key : Int × St × Dir) (data : Bytes),
      (∀ i, t.triple i ≠ key) →
      packetDeserialize t ⟨mkPacketId key, data⟩ = .error (.UnknownId key.1)) := by
  refine ⟨?_, ?_, ?_⟩
  · intro i data v rest hdes
    have hfind := findTriple_self t hinj i
    simp [packetDeserialize, mkPacketId, hfind, hdes]
  · intro i data e hdes
    have hfind := findTriple_self t hinj i
    simp [packetDeserialize, mkPacketId, hfind, hdes]
  · intro key data habs
    have hfind := findTriple_absent t key habs
    simp [packetDeserialize, mkPacketId, hfind]

/-- The two-packet witness protocol, the concrete scenario of the spec:
definition 0 at `(0, Play, Serverbound)` and definition 1 at
`(1, Play, Clientbound)`, both with a single-byte body. -/
def testTable : ProtoTable TestState TestDirection where
  n := 2
  triple i :=
    if i.val = 0 then (0, TestState.Play, TestDirection.Serverbound)
    else (1, TestState.Play, TestDirection.Clientbound)
  Body _ := Fin 256
  bodySer _ v := u8Codec.ser v
  bodyDeser _ bytes := u8Codec.deser bytes

/-- Witness for C2: in the two-packet protocol, `[7, 9]` tagged
`(0, Play, Serverbound)` decodes to variant 0 with payload 7; empty data
on the same triple fails with `DeserializeFailed Eof`; the undeclared
triple `(2, Play, Serverbound)` fails with `UnknownId 2`. -/
theorem packet_dispatch_decode_witness :
    packetDeserialize testTable
        ⟨⟨0, TestState.Play, TestDirection.Serverbound⟩, [7, 9]⟩ =
      .ok ⟨⟨0, by decide⟩, (7 : Fin 256)⟩ ∧
    packetDeserialize testTable
        ⟨⟨0, TestState.Play, TestDirection.Serverbound⟩, []⟩ =
      .error (.DeserializeFailed .Eof) ∧
    packetDeserialize testTable
        ⟨⟨2, TestState.Play, TestDirection.Serverbound⟩, [7]⟩ =
      .error (.UnknownId 2) := by
  have h := packet_dispatch_decode testTable (by decide)
  exact ⟨h.1 ⟨0, by decide⟩ [7, 9] (7 : Fin 256) [9] rfl,
    h.2.1 ⟨0, by decide⟩ [] .Eof rfl,
    h.2.2 (2, TestState.Play, TestDirection.Serverbound) [7] (by decide)⟩

/-- C7: serializing a union value writes exactly the bytes of the wrapped
body's serializer; the discriminant (which variant it is) contributes no
wire bytes of its own. -/
theorem packet_serialize_delegates {St Dir : Type} (t : ProtoTable St Dir)
    (p : PacketUnion t) :
    packetSerialize t p = t.bodySer p.1 p.2 := rfl

/-- C8: serializing a packet identifier writes exactly the
variable-length-integer encoding of its numeric id; the state and
direction components never reach the wire (identifiers differing only
there serialize identically). -/
theorem identifier_serializes_id_only {St Dir : Type}
    (i : Int) (s1 s2 : St) (d1 d2 : Dir) :
    idSerialize ⟨i, s1, d1⟩ = varIntEncode i ∧
    idSerialize ⟨i, s1, d1⟩ = idSerialize ⟨i, s2, d2⟩ :=
  ⟨rfl, rfl⟩

/-- C9: over a table with pairwise-distinct triples whose body codecs
round-trip, encode-then-dispatch-decode is the identity on union values:
dispatching a raw packet carrying `p.id()`'s triple and `p`'s serialized
bytes returns exactly `p`. -/
theorem packet_encode_dispatch_identity {St Dir : Type} [DecidableEq St] [DecidableEq Dir]
    (t : ProtoTable St Dir) (hinj : ∀ i j, t.triple i = t.triple j → i = j)
    (hrt : ∀ (i : Fin t.n) (v : t.Body i), t.bodyDeser i (t.bodySer i v) = .ok (v, []))
    (p : PacketUnion t) :
    packetDeserialize t ⟨packetIdOf t p, packetSerialize t p⟩ = .ok p := by
  obtain ⟨i, v⟩ := p
  have hfind := findTriple_self t hinj i
  have hdes := hrt i v
  simp [packetDeserialize, packetIdOf, packetSerialize, mkPacketId, hfind, hdes]

/-- Witness for C9: the union value at variant 1 with payload 42
round-trips through encode and dispatch-decode in the two-packet
protocol. -/
theorem packet_encode_dispatch_identity_witness :
    packetDeserialize testTable
        ⟨packetIdOf testTable ⟨⟨1, by decide⟩, (42 : Fin 256)⟩,
          packetSerialize testTable ⟨⟨1, by decide⟩, (42 : Fin 256)⟩⟩ =
      .ok ⟨⟨1, by decide⟩, (42 : Fin 256)⟩ :=
  packet_encode_dispatch_identity testTable (by decide)
    (fun i v => by
      have h := u8Codec_exact v []
      rwa [List.append_nil] at h)
    ⟨⟨1, by decide⟩, (42 : Fin 256)⟩

/-- C10: dispatch does not require the body decoder to consume all of
`data`: when the data is a valid body encoding followed by arbitrary extra
bytes (and the body codec meets the wire contract), dispatch succeeds with
the decoded packet, and the trailing bytes are dropped — the result type
carries no remainder at all. -/
theorem packet_dispatch_discards_trailing {St Dir : Type} [DecidableEq St] [DecidableEq Dir]
    (t : ProtoTable St Dir) (hinj : ∀ i j, t.triple i = t.triple j → i = j)
    (i : Fin t.n)
    (hpd : ∀ (v : t.Body i) (extra : Bytes),
      t.bodyDeser i (t.bodySer i v ++ extra) = .ok (v, extra))
    (v : t.Body i) (extra : Bytes) :
    packetDeserialize t ⟨mkPacketId (t.triple i), t.bodySer i v ++ extra⟩ = .ok ⟨i, v⟩ := by
  have hfind := findTriple_self t hinj i
  have hdes := hpd v extra
  simp [packetDeserialize, mkPacketId, hfind, hdes]

/-- Witness for C10: payload 7 followed by the extra bytes `[1, 2, 3]`
still dispatch-decodes to variant 0 with payload 7; the extra bytes are
silently dropped. -/
theorem packet_dispatch_discards_trailing_witness :
    packetDeserialize testTable
        ⟨mkPacketId (testTable.triple ⟨0, by decide⟩),
          testTable.bodySer ⟨0, by decide⟩ (7 : Fin 256) ++ [1, 2, 3]⟩ =
      .ok ⟨⟨0, by decide⟩, (7 : Fin 256)⟩ :=
  packet_dispatch_discards_trailing testTable (by decide) ⟨0, by decide⟩
    (fun v extra => u8Codec_exact v extra) (7 : Fin 256) [1, 2, 3]
